import Mathlib

/-!
Shallow embedding of the identity-resolution and lifecycle-management
subsystem of the harbour-scraper repository (`cleanup_jobs.py` and
`harbour_scraper.py`), together with theorems settling the frozen claims
about it.

Python calendar dates (`datetime.date`) are embedded as triples of
naturals ordered lexicographically; `timedelta` day arithmetic is
embedded through proleptic-Gregorian day numbers.  Machine strings stay
`String` (with the few string operations the source uses re-implemented
by structural recursion over the character list so that everything
evaluates); Python `None`/missing dict fields are embedded as `""` at
the places the source coalesces them with `or ""` / `.get(..., "")`.
-/

/-- A calendar date, mirroring Python `datetime.date` components. -/
structure Date where
  year : Nat
  month : Nat
  day : Nat
deriving DecidableEq

/-- Lexicographic key of a date; Python dates compare chronologically,
which on (year, month, day) triples is the lexicographic order. -/
def Date.dkey (a : Date) : Nat ×ₗ (Nat ×ₗ Nat) :=
  toLex (a.year, toLex (a.month, a.day))

instance : LinearOrder Date :=
  LinearOrder.lift' Date.dkey (by
    intro a b h
    cases a; cases b
    simp only [Date.dkey, toLex] at h
    simpa using h)

/-- Python `date.max`, used by the purge sort key for unknown dates. -/
def dateMax : Date := ⟨9999, 12, 31⟩

/-- Leap-year test of the Gregorian calendar (as used by `datetime`). -/
def isLeapYear (y : Nat) : Bool :=
  y % 4 == 0 && (y % 100 != 0 || y % 400 == 0)

/-- Number of days in a month, as validated by `datetime.date`. -/
def daysInMonth (y m : Nat) : Nat :=
  if m == 2 then (if isLeapYear y then 29 else 28)
  else if m == 4 || m == 6 || m == 9 || m == 11 then 30
  else 31

/-- Day number of a date in the proleptic Gregorian calendar
(days since 0000-03-01), used to embed `timedelta` day arithmetic. -/
def Date.toSerial (a : Date) : Nat :=
  let y := if a.month ≤ 2 then a.year - 1 else a.year
  let era := y / 400
  let yoe := y % 400
  let mp := if a.month > 2 then a.month - 3 else a.month + 9
  let doy := (153 * mp + 2) / 5 + a.day - 1
  let doe := yoe * 365 + yoe / 4 - yoe / 100 + doy
  era * 146097 + doe

/-- Date of a proleptic Gregorian day number (inverse of `Date.toSerial`
on valid dates). -/
def Date.ofSerial (z : Nat) : Date :=
  let era := z / 146097
  let doe := z % 146097
  let yoe := (doe - doe / 1460 + doe / 36524 - doe / 146096) / 365
  let y := yoe + era * 400
  let doy := doe - (365 * yoe + yoe / 4 - yoe / 100)
  let mp := (5 * doy + 2) / 153
  let d := doy - (153 * mp + 2) / 5 + 1
  let m := if mp < 10 then mp + 3 else mp - 9
  ⟨if m ≤ 2 then y + 1 else y, m, d⟩

/-- Embedding of Python `someDate - timedelta(days=n)`. -/
def Date.subDays (a : Date) (n : Nat) : Date :=
  Date.ofSerial (a.toSerial - n)

/-- Drop leading whitespace from a character list. -/
def dropLeadingWs (l : List Char) : List Char :=
  l.dropWhile Char.isWhitespace

/-- Embedding of Python `str.strip()` on the character list. -/
def stripChars (l : List Char) : List Char :=
  (dropLeadingWs (dropLeadingWs l).reverse).reverse

/-- Embedding of Python `str.strip()`. -/
def pyStrip (s : String) : String :=
  ⟨stripChars s.data⟩

/-- Split a character list on a separator character (Python
`str.split(sep)` semantics for a one-character separator). -/
def splitOnChar (sep : Char) : List Char → List (List Char)
  | [] => [[]]
  | c :: rest =>
    let r := splitOnChar sep rest
    if c = sep then [] :: r
    else match r with
      | [] => [[c]]
      | h :: t => (c :: h) :: t

/-- Numeric value of a list of ASCII digits (most significant first). -/
def digitsToNat (l : List Char) : Nat :=
  l.foldl (fun acc c => acc * 10 + (c.toNat - 48)) 0

/-- Whether every character of the list is an ASCII digit. -/
def allDigits (l : List Char) : Bool :=
  l.all Char.isDigit

/-- Embedding of `datetime.strptime(s, "%Y-%m-%d").date()`: exactly four
digits of year, a dash, one or two digits of month, a dash, one or two
digits of day, with calendar validation; year 0 is rejected by
`datetime.date`. Returns `none` where Python raises. -/
def strptimeYmd (s : String) : Option Date :=
  match splitOnChar (Char.ofNat 45) s.data with
  | [ys, ms, ds] =>
    if allDigits ys && allDigits ms && allDigits ds &&
       ys.length == 4 && decide (1 ≤ ms.length) && ms.length ≤ 2 &&
       decide (1 ≤ ds.length) && ds.length ≤ 2 then
      let y := digitsToNat ys
      let m := digitsToNat ms
      let d := digitsToNat ds
      if 1 ≤ y && 1 ≤ m && m ≤ 12 && 1 ≤ d && d ≤ daysInMonth y m then
        some ⟨y, m, d⟩
      else none
    else none
  | _ => none

/-- Embedding of `parse_date_safe` from `cleanup_jobs.py`: strip the
string, return `None` when empty, otherwise `%Y-%m-%d`-parse or `None`. -/
def parse_date_safe (s : String) : Option Date :=
  let t := pyStrip s
  if t = "" then none else strptimeYmd t

/-! ## Retention & Duplicate Purge (`cleanup_jobs.py`, `main`) -/

/-- A Firestore document of the `Jobs` collection as the cleanup script
reads it: document id, the `date-posted` field and the `moreInfoLink`
field (absent fields read back as `""`). -/
structure JobDoc where
  id : String
  datePosted : String
  moreInfoLink : String
deriving DecidableEq

/-- The per-document `info` dict built by the cleanup `main`:
`dp = parse_date_safe(data.get("date-posted", ""))` and
`more_info = (data.get("moreInfoLink") or "").strip()`. -/
structure DocInfo where
  id : String
  date : Option Date
  moreInfoLink : String
deriving DecidableEq

/-- Build the `info` dict of one document. -/
def toInfo (d : JobDoc) : DocInfo :=
  ⟨d.id, parse_date_safe d.datePosted, pyStrip d.moreInfoLink⟩

/-- The recency cutoff `now - timedelta(days=2)`. -/
def cutoffRecent (now : Date) : Date :=
  now.subDays 2

/-- The `is_recent` flag: `dp is not None and dp >= cutoff_recent`. -/
def isRecent (cutoff : Date) (i : DocInfo) : Bool :=
  match i.date with
  | none => false
  | some dp => decide (cutoff ≤ dp)

/-- Step 1 of the purge: ids of documents from the last two days
(`recent_delete_ids`). -/
def recentDeleteIds (cutoff : Date) (infos : List DocInfo) : List String :=
  (infos.filter (isRecent cutoff)).map (·.id)

/-- The members of `link_to_infos[link]`: documents that are not already
scheduled by the recency rule and whose stripped link equals `link`
(callers only use non-empty links, as the grouping loop skips `""`). -/
def groupFor (cutoff : Date) (infos : List DocInfo) (link : String) :
    List DocInfo :=
  infos.filter
    (fun i => !((recentDeleteIds cutoff infos).contains i.id) &&
      i.moreInfoLink == link)

/-- The distinct non-empty links that get a bucket in `link_to_infos`. -/
def dupLinks (cutoff : Date) (infos : List DocInfo) : List String :=
  ((infos.filter
      (fun i => !((recentDeleteIds cutoff infos).contains i.id) &&
        i.moreInfoLink != "")).map (·.moreInfoLink)).dedup

/-- The `sort_key` of the duplicate-collapsing loop: `(date, id)` with
`date.max` standing in for unknown dates. -/
def sortKeyOf (i : DocInfo) : Date ×ₗ String :=
  toLex (match i.date with | none => dateMax | some d => d, i.id)

/-- The comparison `sorted(infos, key=sort_key)` sorts by. -/
def keyRel (a b : DocInfo) : Prop :=
  sortKeyOf a ≤ sortKeyOf b

instance : DecidableRel keyRel :=
  fun a b => inferInstanceAs (Decidable (sortKeyOf a ≤ sortKeyOf b))

instance : IsTotal DocInfo keyRel :=
  ⟨fun a b => le_total (sortKeyOf a) (sortKeyOf b)⟩

instance : IsTrans DocInfo keyRel :=
  ⟨fun _ _ _ hab hbc => le_trans hab hbc⟩

/-- `sorted(infos, key=sort_key)` (Python's sort is stable, and so is
insertion sort, so they agree on every input). -/
def sortGroup (g : List DocInfo) : List DocInfo :=
  List.insertionSort keyRel g

/-- Step 2-3 of the purge: ids scheduled by the duplicate-collapsing
loop (`duplicate_delete_ids`): for every bucketed link with at least two
members, everything but the first of the sorted bucket. -/
def dupDeleteIds (cutoff : Date) (infos : List DocInfo) : List String :=
  (dupLinks cutoff infos).flatMap
    (fun link =>
      let g := groupFor cutoff infos link
      if g.length ≤ 1 then [] else ((sortGroup g).tail).map (·.id))

/-- Step 4: the union `all_delete_ids` (as a list with the same
membership). -/
def allDeleteIds (cutoff : Date) (infos : List DocInfo) : List String :=
  recentDeleteIds cutoff infos ++ dupDeleteIds cutoff infos

/-- One purge cycle of `cleanup_jobs.main` with every delete
succeeding: the surviving documents, i.e. those whose id was never
scheduled. -/
def purge (now : Date) (docs : List JobDoc) : List JobDoc :=
  docs.filter (fun d =>
    !((allDeleteIds (cutoffRecent now) (docs.map toInfo)).contains d.id))

/-! ## Age-based cleanup (`harbour_scraper.py`, `delete_old_jobs`) -/

/-- A Python `datetime`: a date plus the time elapsed within the day
(in microseconds; only its ordering matters here). -/
structure DateTimeM where
  date : Date
  tod : Nat
deriving DecidableEq

/-- Python `datetime` comparison (date first, then time of day). -/
def DateTimeM.ltB (a b : DateTimeM) : Bool :=
  decide (a.date < b.date) || (a.date == b.date && decide (a.tod < b.tod))

/-- The default of the `months` parameter of `delete_old_jobs`
(`months: int = 1.5` in the source). -/
def defaultMonths : ℚ := 3 / 2

/-- The day count of `timedelta(days=90 * months // 3 if months != 3
else 90)`; Python floor-division on the number `months`. -/
def horizonDays (months : ℚ) : ℤ :=
  if months = 3 then 90 else ⌊90 * months / 3⌋

/-- The cutoff `datetime.now() - timedelta(days=horizonDays months)`. -/
def oldJobsCutoff (now : DateTimeM) (months : ℚ) : DateTimeM :=
  ⟨Date.ofSerial (((now.date.toSerial : ℤ) - horizonDays months).toNat),
    now.tod⟩

/-- Whether `delete_old_jobs` deletes a document: strip `date-posted`,
skip when empty or unparsable, delete when the parsed midnight datetime
is strictly before the cutoff. -/
def oldJobsDeletes (now : DateTimeM) (months : ℚ) (d : JobDoc) : Bool :=
  match parse_date_safe d.datePosted with
  | none => false
  | some dp => DateTimeM.ltB ⟨dp, 0⟩ (oldJobsCutoff now months)

/-- One run of `delete_old_jobs` with every delete succeeding: the ids
the run deletes. -/
def delete_old_jobs (now : DateTimeM) (months : ℚ) (docs : List JobDoc) :
    List String :=
  (docs.filter (oldJobsDeletes now months)).map (·.id)

/-! ## Existence Gate (`harbour_scraper.py`, `job_exists_for_url`) -/

/-- The result stream of the Firestore query
`where("moreInfoLink", "==", url).limit(1)` over the store. -/
def matchingJobs (store : List JobDoc) (url : String) : List JobDoc :=
  (store.filter (fun d => d.moreInfoLink == url)).take 1

/-- Embedding of `job_exists_for_url`: when the query raises
(`queryFails`), the `except` arm returns `False`; otherwise `True`
exactly when the stream yields a first element.  The function is total:
no error leaves it. -/
def job_exists_for_url (queryFails : Bool) (store : List JobDoc)
    (url : String) : Bool :=
  if queryFails then false
  else !(matchingJobs store url).isEmpty

/-! ## Admission pipeline (`harbour_scraper.py`, `main` URL loop) -/

/-- A scraped job dict, projected to the field the admission loop
inspects (`company`) plus an opaque remainder. -/
structure JobData where
  company : String
  payload : String
deriving DecidableEq

/-- Outcome of `send_onesignal_notification_for_job`: returned `True`,
returned `False`, or raised. -/
inductive NotifyOutcome
  | ok
  | fail
  | err
deriving DecidableEq

/-- The responses of the collaborators for one URL: the Existence
Gate's answer, whether the URL matches a supported domain, the scrape
result (`none` = scraper returned `None`), whether the Firestore `add`
succeeds, and the notifier outcome. -/
structure UrlOracle where
  existsInStore : Bool
  supported : Bool
  scraped : Option JobData
  insertOk : Bool
  notifyRes : NotifyOutcome
deriving DecidableEq

/-- The observable collaborator calls of the admission loop. -/
inductive Ev
  | gateCheck (url : String)
  | scrapeCall (url : String)
  | insertAttempt (url : String) (job : JobData)
  | notifyCall (url : String) (job : JobData)
  | markSeen (url : String)
deriving DecidableEq

/-- The URL an event concerns. -/
def Ev.url : Ev → String
  | gateCheck u => u
  | scrapeCall u => u
  | insertAttempt u _ => u
  | notifyCall u _ => u
  | markSeen u => u

/-- The company validation of the admission loop:
`company_val = (job_data.get("company") or "").strip()` is rejected when
empty or equal to `"N/A"` after upper-casing. -/
def goodCompany (job : JobData) : Bool :=
  let c := pyStrip job.company
  !(c == "" || String.mk (c.data.map Char.toUpper) == "N/A")

/-- The trace of collaborator calls the loop body makes for one new URL
(one not filtered out by the seen-set): gate check; on a gate hit, mark
seen; otherwise dispatch on domain; scrape; on scrape failure or
missing/`"N/A"` company, mark seen; otherwise attempt the insert, and
only when it succeeds invoke the notifier and mark seen.  A failed
insert ends the iteration without marking. -/
def processUrl (o : UrlOracle) (url : String) : List Ev :=
  if o.existsInStore then
    [Ev.gateCheck url, Ev.markSeen url]
  else if o.supported then
    match o.scraped with
    | none => [Ev.gateCheck url, Ev.scrapeCall url, Ev.markSeen url]
    | some job =>
      if goodCompany job then
        if o.insertOk then
          [Ev.gateCheck url, Ev.scrapeCall url, Ev.insertAttempt url job,
           Ev.notifyCall url job, Ev.markSeen url]
        else
          [Ev.gateCheck url, Ev.scrapeCall url, Ev.insertAttempt url job]
      else
        [Ev.gateCheck url, Ev.scrapeCall url, Ev.markSeen url]
  else
    [Ev.gateCheck url, Ev.markSeen url]

/-- The job documents the loop body adds to the store for one URL. -/
def insertedJobs (o : UrlOracle) : List JobData :=
  if o.existsInStore then []
  else if o.supported then
    match o.scraped with
    | none => []
    | some job => if goodCompany job && o.insertOk then [job] else []
  else []

/-- One full admission run: `new_urls = [u for u in all_urls if u not in
processed]`, then the loop body for each new URL in order (the channel
source deduplicates `all_urls`, so within one run the seen-set loaded at
the start is the only filter). -/
def runPipeline (processed : List String) (oracle : String → UrlOracle)
    (urls : List String) : List Ev :=
  (urls.filter (fun u => !(processed.contains u))).flatMap
    (fun u => processUrl (oracle u) u)

/-- Selects the store-write and seen-set-mark events of a trace, in
order. -/
def writeOrMark (e : Ev) : Bool :=
  match e with
  | Ev.insertAttempt _ _ => true
  | Ev.markSeen _ => true
  | _ => false

/-! ## Spec-side definitions used by the refinement claims -/

/-- The group of store records sharing one source link, as the spec
counts them (the link as the code uses it: stripped). -/
def specGroup (docs : List JobDoc) (link : String) : List JobDoc :=
  docs.filter (fun d => pyStrip d.moreInfoLink == link)

/-- The ordering of the spec sentence: records are compared by
`(datePosted, id)` and records with unparsable or missing `datePosted`
sort after all records with known dates. -/
def specLt (a b : JobDoc) : Prop :=
  match parse_date_safe a.datePosted, parse_date_safe b.datePosted with
  | some da, some db => da < db ∨ (da = db ∧ a.id < b.id)
  | some _, none => True
  | none, some _ => False
  | none, none => a.id < b.id

instance instDecidableSpecLt (a b : JobDoc) : Decidable (specLt a b) := by
  unfold specLt
  cases parse_date_safe a.datePosted <;>
    cases parse_date_safe b.datePosted <;>
      dsimp only <;> infer_instance

/-! ## Helper lemmas -/

theorem mem_purge_iff (now : Date) (docs : List JobDoc) (d : JobDoc) :
    d ∈ purge now docs ↔
      d ∈ docs ∧ d.id ∉ allDeleteIds (cutoffRecent now) (docs.map toInfo) := by
  simp [purge, List.mem_filter, List.elem_iff]

theorem mem_recentDeleteIds (cutoff : Date) (infos : List DocInfo)
    (x : String) :
    x ∈ recentDeleteIds cutoff infos ↔
      ∃ i ∈ infos, isRecent cutoff i = true ∧ i.id = x := by
  simp only [recentDeleteIds, List.mem_map, List.mem_filter]
  constructor
  · rintro ⟨i, ⟨hi, hr⟩, hx⟩; exact ⟨i, hi, hr, hx⟩
  · rintro ⟨i, hi, hr, hx⟩; exact ⟨i, ⟨hi, hr⟩, hx⟩

theorem infos_map_id (docs : List JobDoc) :
    (docs.map toInfo).map (·.id) = docs.map (·.id) := by
  rw [List.map_map]; rfl

theorem toInfo_inj (docs : List JobDoc)
    (hnodup : (docs.map (·.id)).Nodup) :
    ∀ a ∈ docs, ∀ b ∈ docs, toInfo a = toInfo b → a = b := by
  intro a ha b hb heq
  exact List.inj_on_of_nodup_map hnodup ha hb (congrArg DocInfo.id heq)

theorem mem_recentIds_iff (cutoff : Date) (docs : List JobDoc)
    (hnodup : (docs.map (·.id)).Nodup) {d : JobDoc} (hd : d ∈ docs) :
    d.id ∈ recentDeleteIds cutoff (docs.map toInfo) ↔
      isRecent cutoff (toInfo d) = true := by
  rw [mem_recentDeleteIds]
  constructor
  · rintro ⟨i, hi, hri, hid⟩
    obtain ⟨d2, hd2, rfl⟩ := List.mem_map.mp hi
    have : d2 = d := List.inj_on_of_nodup_map hnodup hd2 hd hid
    subst this; exact hri
  · intro hr
    exact ⟨toInfo d, List.mem_map_of_mem toInfo hd, hr, rfl⟩

theorem contains_recent_eq (cutoff : Date) (docs : List JobDoc)
    (hnodup : (docs.map (·.id)).Nodup) {d : JobDoc} (hd : d ∈ docs) :
    (recentDeleteIds cutoff (docs.map toInfo)).contains d.id =
      isRecent cutoff (toInfo d) := by
  cases hr : isRecent cutoff (toInfo d) with
  | true =>
    exact List.elem_iff.mpr ((mem_recentIds_iff cutoff docs hnodup hd).mpr hr)
  | false =>
    cases hc : (recentDeleteIds cutoff (docs.map toInfo)).contains d.id with
    | false => rfl
    | true =>
      have hmem := List.elem_iff.mp hc
      rw [mem_recentIds_iff cutoff docs hnodup hd] at hmem
      rw [hmem] at hr
      cases hr

theorem groupFor_eq_map (cutoff : Date) (docs : List JobDoc) (L : String)
    (hnodup : (docs.map (·.id)).Nodup) :
    groupFor cutoff (docs.map toInfo) L =
      (docs.filter (fun d => !(isRecent cutoff (toInfo d)) &&
        (pyStrip d.moreInfoLink == L))).map toInfo := by
  unfold groupFor
  rw [List.filter_map]
  congr 1
  apply List.filter_congr
  intro d hd
  simp only [Function.comp]
  rw [show (toInfo d).moreInfoLink = pyStrip d.moreInfoLink from rfl,
    show (toInfo d).id = d.id from rfl,
    contains_recent_eq cutoff docs hnodup hd]

theorem mem_dupLinks_iff (cutoff : Date) (docs : List JobDoc)
    (hnodup : (docs.map (·.id)).Nodup) (L : String) :
    L ∈ dupLinks cutoff (docs.map toInfo) ↔
      (L ≠ "" ∧ ∃ d ∈ docs, isRecent cutoff (toInfo d) = false ∧
        pyStrip d.moreInfoLink = L) := by
  unfold dupLinks
  rw [List.mem_dedup]
  constructor
  · intro h
    obtain ⟨i, hi, hlink⟩ := List.mem_map.mp h
    rw [List.mem_filter] at hi
    obtain ⟨himem, hcond⟩ := hi
    obtain ⟨d, hd, rfl⟩ := List.mem_map.mp himem
    rw [Bool.and_eq_true, Bool.not_eq_true', bne_iff_ne] at hcond
    have hrec : isRecent cutoff (toInfo d) = false := by
      rw [← contains_recent_eq cutoff docs hnodup hd]; exact hcond.1
    subst hlink
    exact ⟨hcond.2, d, hd, hrec, rfl⟩
  · rintro ⟨hne, d, hd, hrec, hlink⟩
    apply List.mem_map.mpr
    refine ⟨toInfo d, ?_, hlink⟩
    rw [List.mem_filter, Bool.and_eq_true, Bool.not_eq_true', bne_iff_ne]
    refine ⟨List.mem_map_of_mem toInfo hd, ?_, ?_⟩
    · rw [show (toInfo d).id = d.id from rfl,
        contains_recent_eq cutoff docs hnodup hd]
      exact hrec
    · rw [show (toInfo d).moreInfoLink = pyStrip d.moreInfoLink from rfl,
        hlink]
      exact hne

theorem two_mem_length {α : Type} (l : List α) {a b : α} (ha : a ∈ l)
    (hb : b ∈ l) (hne : a ≠ b) : 2 ≤ l.length := by
  cases l with
  | nil => cases ha
  | cons x t =>
    cases t with
    | nil =>
      rw [List.mem_singleton] at ha hb
      exact absurd (ha.trans hb.symm) hne
    | cons y t2 => simp [List.length_cons]

theorem exists_two_of_nodup {α : Type} (l : List α) (hn : l.Nodup)
    (hl : 2 ≤ l.length) : ∃ a ∈ l, ∃ b ∈ l, a ≠ b := by
  cases l with
  | nil => simp at hl
  | cons a t =>
    cases t with
    | nil => simp at hl
    | cons b t2 =>
      refine ⟨a, by simp, b, by simp, ?_⟩
      rw [List.nodup_cons] at hn
      intro h
      subst h
      exact hn.1 (by simp)

theorem sortGroup_head_tail (g : List DocInfo)
    (hnd : (g.map (·.id)).Nodup) (h1 : 1 ≤ g.length) :
    ∃ h t, sortGroup g = h :: t ∧ h ∈ g ∧
      (∀ i ∈ g, keyRel h i) ∧
      (∀ i ∈ g, (i ∈ t ↔ i ≠ h)) := by
  have hperm : List.Perm (sortGroup g) g := List.perm_insertionSort keyRel g
  have hsorted : List.Sorted keyRel (sortGroup g) :=
    List.sorted_insertionSort keyRel g
  have hlen : (sortGroup g).length = g.length :=
    List.length_insertionSort keyRel g
  cases heq : sortGroup g with
  | nil =>
    rw [heq] at hlen
    simp at hlen
    omega
  | cons h t =>
    rw [heq] at hperm hsorted
    have hnodup : (h :: t).Nodup :=
      hperm.nodup_iff.mpr (List.Nodup.of_map _ hnd)
    rw [List.nodup_cons] at hnodup
    refine ⟨h, t, rfl, hperm.mem_iff.mp (by simp), ?_, ?_⟩
    · intro i hi
      rcases List.mem_cons.mp (hperm.mem_iff.mpr hi) with hih | hit
      · subst hih; exact le_refl _
      · exact List.rel_of_sorted_cons hsorted i hit
    · intro i hi
      constructor
      · intro hit hih
        subst hih
        exact hnodup.1 hit
      · intro hne
        rcases List.mem_cons.mp (hperm.mem_iff.mpr hi) with hih | hit
        · exact absurd hih hne
        · exact hit

theorem mem_dupDeleteIds_intro (cutoff : Date) (docs : List JobDoc)
    (hnodup : (docs.map (·.id)).Nodup) {d : JobDoc} (hd : d ∈ docs)
    (hnr : isRecent cutoff (toInfo d) = false)
    (hne : pyStrip d.moreInfoLink ≠ "")
    (hlen : 2 ≤ (groupFor cutoff (docs.map toInfo)
      (pyStrip d.moreInfoLink)).length)
    (htail : toInfo d ∈ (sortGroup (groupFor cutoff (docs.map toInfo)
      (pyStrip d.moreInfoLink))).tail) :
    d.id ∈ dupDeleteIds cutoff (docs.map toInfo) := by
  unfold dupDeleteIds
  rw [List.mem_flatMap]
  refine ⟨pyStrip d.moreInfoLink, ?_, ?_⟩
  · exact (mem_dupLinks_iff cutoff docs hnodup _).mpr
      ⟨hne, d, hd, hnr, rfl⟩
  · rw [if_neg (by omega)]
    exact List.mem_map.mpr ⟨toInfo d, htail, rfl⟩

theorem mem_dupDeleteIds_elim (cutoff : Date) (docs : List JobDoc)
    (hnodup : (docs.map (·.id)).Nodup) (x : String)
    (hx : x ∈ dupDeleteIds cutoff (docs.map toInfo)) :
    ∃ d ∈ docs, d.id = x ∧ isRecent cutoff (toInfo d) = false ∧
      pyStrip d.moreInfoLink ≠ "" ∧
      2 ≤ (groupFor cutoff (docs.map toInfo)
        (pyStrip d.moreInfoLink)).length ∧
      toInfo d ∈ (sortGroup (groupFor cutoff (docs.map toInfo)
        (pyStrip d.moreInfoLink))).tail := by
  unfold dupDeleteIds at hx
  rw [List.mem_flatMap] at hx
  obtain ⟨L, hL, hcontrib⟩ := hx
  by_cases hle : (groupFor cutoff (docs.map toInfo) L).length ≤ 1
  · rw [if_pos hle] at hcontrib
    cases hcontrib
  · rw [if_neg hle] at hcontrib
    obtain ⟨i, hitail, hid⟩ := List.mem_map.mp hcontrib
    have hisg : i ∈ sortGroup (groupFor cutoff (docs.map toInfo) L) :=
      List.mem_of_mem_tail hitail
    have higrp : i ∈ groupFor cutoff (docs.map toInfo) L :=
      (List.perm_insertionSort keyRel _).mem_iff.mp hisg
    have hiinf : i ∈ docs.map toInfo ∧ _ := List.mem_filter.mp higrp
    obtain ⟨d, hd, rfl⟩ := List.mem_map.mp hiinf.1
    have hcond := hiinf.2
    rw [Bool.and_eq_true, Bool.not_eq_true', beq_iff_eq] at hcond
    have hrec : isRecent cutoff (toInfo d) = false := by
      rw [← contains_recent_eq cutoff docs hnodup hd]; exact hcond.1
    have hlinkL : pyStrip d.moreInfoLink = L := hcond.2
    have hLne : L ≠ "" :=
      ((mem_dupLinks_iff cutoff docs hnodup L).mp hL).1
    subst hlinkL
    exact ⟨d, hd, hid, hrec, hLne, by omega, hitail⟩

/-- Translation from the code's sort-key order (`date.max` standing in
for unknown dates) to the spec's ordering, valid whenever the compared
later record is not recent and the recency cutoff is at most
`date.max` (so its known date, being before the cutoff, is strictly
below `date.max`). -/
theorem specLt_of_key_lt (cutoff : Date) (s d : JobDoc)
    (hcut : cutoff ≤ dateMax)
    (hrd : isRecent cutoff (toInfo d) = false)
    (hlt : sortKeyOf (toInfo s) < sortKeyOf (toInfo d)) :
    specLt s d := by
  have hdate_s : (toInfo s).date = parse_date_safe s.datePosted := rfl
  have hdate_d : (toInfo d).date = parse_date_safe d.datePosted := rfl
  unfold sortKeyOf at hlt
  unfold specLt
  cases hps : parse_date_safe s.datePosted with
  | some ds =>
    cases hpd : parse_date_safe d.datePosted with
    | some dd =>
      simp only [hdate_s, hdate_d, hps, hpd] at hlt
      rw [Prod.Lex.lt_iff] at hlt
      simp only [hps, hpd]
      exact hlt
    | none =>
      simp only [hps, hpd]
  | none =>
    cases hpd : parse_date_safe d.datePosted with
    | some dd =>
      exfalso
      have hddlt : dd < cutoff := by
        unfold isRecent at hrd
        rw [hdate_d, hpd] at hrd
        exact lt_of_not_le (by simpa using hrd)
      have hddmax : dd < dateMax := lt_of_lt_of_le hddlt hcut
      simp only [hdate_s, hdate_d, hps, hpd] at hlt
      rw [Prod.Lex.lt_iff] at hlt
      rcases hlt with h1 | ⟨h1, _⟩
      · exact absurd h1 (not_lt.mpr (le_of_lt hddmax))
      · have h1x : dateMax = dd := h1
        rw [← h1x] at hddmax
        exact absurd hddmax (lt_irrefl _)
    | none =>
      simp only [hdate_s, hdate_d, hps, hpd] at hlt
      rw [Prod.Lex.lt_iff] at hlt
      simp only [hps, hpd]
      rcases hlt with h1 | ⟨_, h2⟩
      · exact absurd h1 (lt_irrefl _)
      · exact h2

theorem processUrl_url (o : UrlOracle) (v : String) :
    ∀ e ∈ processUrl o v, e.url = v := by
  intro e he
  unfold processUrl at he
  repeat' split at he
  all_goals (fin_cases he <;> rfl)

/-! ## Claim theorems -/

/-- C1: for every group of two or more store records sharing one
non-empty source link, none of which is caught by the recency rule, one
purge cycle keeps exactly one member, and the survivor is the least
group member under the `(datePosted, id)` ordering with unknown dates
last.  The store-unique document ids give `hnodup`; `hcut` states that
the recency cutoff is no later than `date.max` (true of every real
date, and forced on any group member with a known date by `hnr`). -/
theorem c1_purge_collapses_duplicates (now : Date) (docs : List JobDoc)
    (L : String) (hnodup : (docs.map (·.id)).Nodup) (hL : L ≠ "")
    (hlen : 2 ≤ (specGroup docs L).length)
    (hnr : ∀ d ∈ specGroup docs L,
      isRecent (cutoffRecent now) (toInfo d) = false)
    (hcut : cutoffRecent now ≤ dateMax) :
    ∃ s ∈ specGroup docs L,
      (∀ d ∈ specGroup docs L, (d ∈ purge now docs ↔ d = s)) ∧
      (∀ d ∈ specGroup docs L, d ≠ s → specLt s d) := by
  have hgrp : groupFor (cutoffRecent now) (docs.map toInfo) L =
      (specGroup docs L).map toInfo := by
    rw [groupFor_eq_map (cutoffRecent now) docs L hnodup]
    unfold specGroup
    congr 1
    apply List.filter_congr
    intro d hd
    cases hlk : (pyStrip d.moreInfoLink == L) with
    | false => simp
    | true =>
      have hdg : d ∈ specGroup docs L := List.mem_filter.mpr ⟨hd, hlk⟩
      rw [hnr d hdg]
      simp
  have hglen : 1 ≤ ((specGroup docs L).map toInfo).length := by
    rw [List.length_map]; omega
  have hgnd : (((specGroup docs L).map toInfo).map (·.id)).Nodup := by
    have hsub : List.Sublist ((specGroup docs L).map (fun d => d.id))
        (docs.map (fun d => d.id)) :=
      List.Sublist.map _ (List.filter_sublist docs)
    have h2 := List.Nodup.sublist hsub hnodup
    rw [List.map_map]
    exact h2
  obtain ⟨h, t, hsort, hhmem, hmin, htail⟩ :=
    sortGroup_head_tail ((specGroup docs L).map toInfo) hgnd hglen
  obtain ⟨s, hsg, hs⟩ := List.mem_map.mp hhmem
  have hsd : s ∈ docs := (List.mem_filter.mp hsg).1
  refine ⟨s, hsg, ?_, ?_⟩
  · intro d hdg
    have hdd : d ∈ docs := (List.mem_filter.mp hdg).1
    have hlinkd : pyStrip d.moreInfoLink = L :=
      beq_iff_eq.mp (List.mem_filter.mp hdg).2
    rw [mem_purge_iff]
    constructor
    · rintro ⟨_, hnotall⟩
      have hnotdup : d.id ∉ dupDeleteIds (cutoffRecent now)
          (docs.map toInfo) :=
        fun hmem => hnotall (List.mem_append_right _ hmem)
      have htin : toInfo d ∉ t := by
        intro htmem
        apply hnotdup
        apply mem_dupDeleteIds_intro (cutoffRecent now) docs hnodup hdd
          (hnr d hdg)
        · rw [hlinkd]; exact hL
        · rw [hlinkd, hgrp, List.length_map]; exact hlen
        · rw [hlinkd, hgrp, hsort]; exact htmem
      have hdim : toInfo d ∈ (specGroup docs L).map toInfo :=
        List.mem_map_of_mem toInfo hdg
      have heqh : toInfo d = h := by
        by_contra hne
        exact htin ((htail (toInfo d) hdim).mpr hne)
      rw [← hs] at heqh
      exact toInfo_inj docs hnodup d hdd s hsd heqh
    · intro hds
      have hsh : toInfo d = h := by rw [hds]; exact hs
      refine ⟨hdd, ?_⟩
      intro hall
      rcases List.mem_append.mp hall with hre | hdu
      · rw [mem_recentIds_iff (cutoffRecent now) docs hnodup hdd] at hre
        rw [hnr _ hdg] at hre
        cases hre
      · obtain ⟨d2, hd2, hid2, hx1, hx2, hx3, htl2⟩ :=
          mem_dupDeleteIds_elim (cutoffRecent now) docs hnodup _ hdu
        have hd2e : d2 = d := List.inj_on_of_nodup_map hnodup hd2 hdd hid2
        rw [hd2e, hlinkd, hgrp, hsort] at htl2
        exact ((htail (toInfo d)
          (List.mem_map_of_mem toInfo hdg)).mp htl2) hsh
  · intro d hdg hne
    have hdd : d ∈ docs := (List.mem_filter.mp hdg).1
    have hdim : toInfo d ∈ (specGroup docs L).map toInfo :=
      List.mem_map_of_mem toInfo hdg
    have hle : keyRel h (toInfo d) := hmin (toInfo d) hdim
    have hnekey : sortKeyOf h ≠ sortKeyOf (toInfo d) := by
      intro heq
      apply hne
      rw [← hs] at heq
      have hid : s.id = d.id := by
        have := congrArg (fun k => (ofLex k).2) heq
        exact this
      exact (List.inj_on_of_nodup_map hnodup hdd hsd hid.symm)
    have hlt : sortKeyOf (toInfo s) < sortKeyOf (toInfo d) := by
      rw [hs]
      exact lt_of_le_of_ne hle hnekey
    exact specLt_of_key_lt (cutoffRecent now) s d hcut (hnr d hdg) hlt

/-- Witness for C1: the spec's scenario — three records sharing link
`L`, dated 2024-01-01, 2024-01-05 and unknown — at `now` = 2024-06-10:
`id1` survives, `id2` and `id3` are deleted, and `id1` is least in the
spec ordering. -/
theorem c1_purge_collapses_duplicates_witness :
    (⟨"id1", "2024-01-01", "L"⟩ : JobDoc) ∈ purge ⟨2024, 6, 10⟩
      [⟨"id1", "2024-01-01", "L"⟩, ⟨"id2", "2024-01-05", "L"⟩,
       ⟨"id3", "", "L"⟩] ∧
    (⟨"id2", "2024-01-05", "L"⟩ : JobDoc) ∉ purge ⟨2024, 6, 10⟩
      [⟨"id1", "2024-01-01", "L"⟩, ⟨"id2", "2024-01-05", "L"⟩,
       ⟨"id3", "", "L"⟩] ∧
    (⟨"id3", "", "L"⟩ : JobDoc) ∉ purge ⟨2024, 6, 10⟩
      [⟨"id1", "2024-01-01", "L"⟩, ⟨"id2", "2024-01-05", "L"⟩,
       ⟨"id3", "", "L"⟩] ∧
    specLt ⟨"id1", "2024-01-01", "L"⟩ ⟨"id2", "2024-01-05", "L"⟩ ∧
    specLt ⟨"id1", "2024-01-01", "L"⟩ ⟨"id3", "", "L"⟩ := by
  obtain ⟨s, hs, huniq, hmin⟩ := c1_purge_collapses_duplicates
    ⟨2024, 6, 10⟩
    [⟨"id1", "2024-01-01", "L"⟩, ⟨"id2", "2024-01-05", "L"⟩,
     ⟨"id3", "", "L"⟩] "L"
    (by decide) (by decide) (by decide) (by decide) (by decide)
  have h1 : (⟨"id1", "2024-01-01", "L"⟩ : JobDoc) ∈ purge ⟨2024, 6, 10⟩
      [⟨"id1", "2024-01-01", "L"⟩, ⟨"id2", "2024-01-05", "L"⟩,
       ⟨"id3", "", "L"⟩] := by decide
  have hseq : (⟨"id1", "2024-01-01", "L"⟩ : JobDoc) = s :=
    (huniq _ (by decide)).mp h1
  subst hseq
  refine ⟨h1, ?_, ?_, ?_, ?_⟩
  · intro hm
    exact absurd ((huniq _ (by decide)).mp hm) (by decide)
  · intro hm
    exact absurd ((huniq _ (by decide)).mp hm) (by decide)
  · exact hmin _ (by decide) (by decide)
  · exact hmin _ (by decide) (by decide)

/-- C2: every store record whose `datePosted` parses as a date on or
after `now - 2 days` is deleted by one purge cycle, even when it is the
only record for its source link (no duplication hypothesis is needed at
all). -/
theorem c2_purge_deletes_recent (now : Date) (docs : List JobDoc)
    (d : JobDoc) (dp : Date) (hd : d ∈ docs)
    (hp : parse_date_safe d.datePosted = some dp)
    (hge : cutoffRecent now ≤ dp) :
    d ∉ purge now docs := by
  intro hmem
  rw [mem_purge_iff] at hmem
  apply hmem.2
  apply List.mem_append_left
  rw [mem_recentDeleteIds]
  refine ⟨toInfo d, List.mem_map_of_mem toInfo hd, ?_, rfl⟩
  simp [isRecent, toInfo, hp, hge]

/-- Witness for C2: the spec's scenario record `{id4: link=M,
date=today}` with `now` = 2024-06-10 is deleted although it is the only
record for `M`. -/
theorem c2_purge_deletes_recent_witness :
    (⟨"id4", "2024-06-10", "M"⟩ : JobDoc) ∉
      purge ⟨2024, 6, 10⟩ [⟨"id4", "2024-06-10", "M"⟩] :=
  c2_purge_deletes_recent ⟨2024, 6, 10⟩ _ _ ⟨2024, 6, 10⟩
    (by decide) (by decide) (by decide)

/-- C5: the purge is idempotent — with the store-unique document ids,
running a full cycle on the survivors of a cycle deletes nothing: no
survivor is recent (every recent record died in round one), and every
non-empty link retains at most one record, so no duplicate bucket of
size two or more exists in round two. -/
theorem c5_purge_idempotent (now : Date) (docs : List JobDoc)
    (hnodup : (docs.map (·.id)).Nodup) :
    purge now (purge now docs) = purge now docs := by
  have hSsub : List.Sublist (purge now docs) docs :=
    List.filter_sublist docs
  have hSnodup : ((purge now docs).map (·.id)).Nodup :=
    List.Nodup.sublist (List.Sublist.map _ hSsub) hnodup
  have hSmem : ∀ d ∈ purge now docs, d ∈ docs ∧
      d.id ∉ allDeleteIds (cutoffRecent now) (docs.map toInfo) := by
    intro d hd
    exact (mem_purge_iff now docs d).mp hd
  have hSnr : ∀ d ∈ purge now docs,
      isRecent (cutoffRecent now) (toInfo d) = false := by
    intro d hd
    obtain ⟨hdd, hnall⟩ := hSmem d hd
    cases hr : isRecent (cutoffRecent now) (toInfo d) with
    | false => rfl
    | true =>
      exact absurd (List.mem_append_left _
        ((mem_recentIds_iff (cutoffRecent now) docs hnodup hdd).mpr hr))
        hnall
  have hrecS : recentDeleteIds (cutoffRecent now)
      ((purge now docs).map toInfo) = [] := by
    unfold recentDeleteIds
    have hf : List.filter (isRecent (cutoffRecent now))
        ((purge now docs).map toInfo) = [] := by
      rw [List.filter_eq_nil_iff]
      intro i hi
      obtain ⟨d, hd, rfl⟩ := List.mem_map.mp hi
      rw [hSnr d hd]
      simp
    rw [hf]
    rfl
  have hdupS : ∀ x, x ∉ dupDeleteIds (cutoffRecent now)
      ((purge now docs).map toInfo) := by
    intro x hx
    obtain ⟨d, hdS, hidx, hrec, hne, hlen2, htl⟩ :=
      mem_dupDeleteIds_elim (cutoffRecent now) (purge now docs) hSnodup
        x hx
    have hgrp2 := groupFor_eq_map (cutoffRecent now) (purge now docs)
      (pyStrip d.moreInfoLink) hSnodup
    rw [hgrp2, List.length_map] at hlen2
    have hfn : ((purge now docs).filter
        (fun d2 => !(isRecent (cutoffRecent now) (toInfo d2)) &&
          (pyStrip d2.moreInfoLink == pyStrip d.moreInfoLink))).Nodup :=
      List.Nodup.filter _ (List.Nodup.of_map _ hSnodup)
    obtain ⟨a, ha, b, hb, hab⟩ := exists_two_of_nodup _ hfn hlen2
    obtain ⟨haS, hacond⟩ := List.mem_filter.mp ha
    obtain ⟨hbS, hbcond⟩ := List.mem_filter.mp hb
    have had : a ∈ docs := (hSmem a haS).1
    have hbd : b ∈ docs := (hSmem b hbS).1
    rw [Bool.and_eq_true] at hacond hbcond
    have halink : pyStrip a.moreInfoLink = pyStrip d.moreInfoLink :=
      beq_iff_eq.mp hacond.2
    have hblink : pyStrip b.moreInfoLink = pyStrip d.moreInfoLink :=
      beq_iff_eq.mp hbcond.2
    have hgrp1 := groupFor_eq_map (cutoffRecent now) docs
      (pyStrip d.moreInfoLink) hnodup
    have hag : toInfo a ∈ groupFor (cutoffRecent now) (docs.map toInfo)
        (pyStrip d.moreInfoLink) := by
      rw [hgrp1]
      apply List.mem_map_of_mem toInfo
      apply List.mem_filter.mpr
      refine ⟨had, ?_⟩
      rw [Bool.and_eq_true]
      exact ⟨by rw [Bool.not_eq_true', hSnr a haS],
        beq_iff_eq.mpr halink⟩
    have hbg : toInfo b ∈ groupFor (cutoffRecent now) (docs.map toInfo)
        (pyStrip d.moreInfoLink) := by
      rw [hgrp1]
      apply List.mem_map_of_mem toInfo
      apply List.mem_filter.mpr
      refine ⟨hbd, ?_⟩
      rw [Bool.and_eq_true]
      exact ⟨by rw [Bool.not_eq_true', hSnr b hbS],
        beq_iff_eq.mpr hblink⟩
    have habinfo : toInfo a ≠ toInfo b :=
      fun hh => hab (toInfo_inj docs hnodup a had b hbd hh)
    have h2g1 : 2 ≤ (groupFor (cutoffRecent now) (docs.map toInfo)
        (pyStrip d.moreInfoLink)).length :=
      two_mem_length _ hag hbg habinfo
    have hnd1 : ((groupFor (cutoffRecent now) (docs.map toInfo)
        (pyStrip d.moreInfoLink)).map (·.id)).Nodup := by
      rw [hgrp1, List.map_map]
      exact List.Nodup.sublist
        (List.Sublist.map _ (List.filter_sublist docs)) hnodup
    obtain ⟨h, t, hsort, hhmem, hmin, htail⟩ :=
      sortGroup_head_tail _ hnd1 (by omega)
    have hsurv : ∀ c ∈ purge now docs, c ∈ docs →
        pyStrip c.moreInfoLink = pyStrip d.moreInfoLink →
        toInfo c ∈ groupFor (cutoffRecent now) (docs.map toInfo)
          (pyStrip d.moreInfoLink) →
        toInfo c = h := by
      intro c hcS hcd hclink hcg
      by_contra hch
      have hct : toInfo c ∈ t := (htail (toInfo c) hcg).mpr hch
      apply (hSmem c hcS).2
      apply List.mem_append_right
      apply mem_dupDeleteIds_intro (cutoffRecent now) docs hnodup hcd
        (hSnr c hcS)
      · rw [hclink]; exact hne
      · rw [hclink]; omega
      · rw [hclink, hsort]; exact hct
    have hah : toInfo a = h := hsurv a haS had halink hag
    have hbh : toInfo b = h := hsurv b hbS hbd hblink hbg
    exact habinfo (hah.trans hbh.symm)
  have hrfl : purge now (purge now docs) =
      (purge now docs).filter (fun d =>
        !((allDeleteIds (cutoffRecent now)
            ((purge now docs).map toInfo)).contains d.id)) := rfl
  rw [hrfl, List.filter_eq_self]
  intro d hd
  cases hc : (allDeleteIds (cutoffRecent now)
      ((purge now docs).map toInfo)).contains d.id with
  | false => rfl
  | true =>
    exfalso
    have hmem := List.elem_iff.mp hc
    rcases List.mem_append.mp hmem with h1 | h2
    · rw [hrecS] at h1
      cases h1
    · exact hdupS _ h2

/-- Witness for C5 on a store mixing duplicates, a recent record, an
empty link and an unknown date. -/
theorem c5_purge_idempotent_witness :
    purge ⟨2024, 6, 10⟩ (purge ⟨2024, 6, 10⟩
      [⟨"id1", "2024-01-01", "L"⟩, ⟨"id2", "2024-01-05", "L"⟩,
       ⟨"id3", "", "L"⟩, ⟨"id4", "2024-06-10", "M"⟩,
       ⟨"id5", "2024-02-02", ""⟩, ⟨"id6", "2024-03-03", ""⟩]) =
    purge ⟨2024, 6, 10⟩
      [⟨"id1", "2024-01-01", "L"⟩, ⟨"id2", "2024-01-05", "L"⟩,
       ⟨"id3", "", "L"⟩, ⟨"id4", "2024-06-10", "M"⟩,
       ⟨"id5", "2024-02-02", ""⟩, ⟨"id6", "2024-03-03", ""⟩] :=
  c5_purge_idempotent ⟨2024, 6, 10⟩
    [⟨"id1", "2024-01-01", "L"⟩, ⟨"id2", "2024-01-05", "L"⟩,
     ⟨"id3", "", "L"⟩, ⟨"id4", "2024-06-10", "M"⟩,
     ⟨"id5", "2024-02-02", ""⟩, ⟨"id6", "2024-03-03", ""⟩]
    (by decide)

/-- C4: when the Existence Gate's store query raises,
`job_exists_for_url` returns `false` (it is a total function into
`Bool`, so no error propagates); when the query succeeds it returns
`true` exactly when some stored record has the given `moreInfoLink`. -/
theorem c4_gate_fail_open (store : List JobDoc) (url : String) :
    job_exists_for_url true store url = false ∧
    (job_exists_for_url false store url = true ↔
      ∃ d ∈ store, d.moreInfoLink = url) := by
  constructor
  · rfl
  · simp [job_exists_for_url, matchingJobs, List.isEmpty_iff,
      List.take_eq_nil_iff, List.filter_eq_nil_iff]

/-- C8: an identifier already present in the Local Seen-Set when the
run starts gets no Existence Gate query, no scrape call, no store write
and in fact no collaborator call at all: no event of the run concerns
it. -/
theorem c8_seen_url_untouched (processed : List String)
    (oracle : String → UrlOracle) (urls : List String) (u : String)
    (hu : u ∈ processed) :
    (runPipeline processed oracle urls).filter (fun e => e.url == u) =
      [] := by
  rw [List.filter_eq_nil_iff]
  intro e he
  simp only [beq_iff_eq]
  intro heq
  unfold runPipeline at he
  rw [List.mem_flatMap] at he
  obtain ⟨v, hv, hev⟩ := he
  rw [List.mem_filter] at hv
  have hvu : e.url = v := processUrl_url _ _ e hev
  rw [heq] at hvu
  subst hvu
  simp only [Bool.not_eq_eq_eq_not, Bool.not_true, ← Bool.not_eq_true,
    List.elem_iff] at hv
  exact hv.2 hu

/-- Witness for C8: with `u` pre-seen, a run over `[u]` makes no call
at all. -/
theorem c8_seen_url_untouched_witness :
    ("u" ∈ ["u"]) ∧
    (runPipeline ["u"]
      (fun _ => ⟨false, true, some ⟨"Acme", "x"⟩, true, NotifyOutcome.ok⟩)
      ["u"]).filter (fun e => e.url == "u") = [] :=
  ⟨by decide, c8_seen_url_untouched ["u"] _ ["u"] "u" (by decide)⟩

/-- Counterexample to C3 as stated: a URL whose scrape succeeds with a
valid company but whose Firestore `add` raises is NOT added to the
seen set — the loop's `except` arm only logs, and `append_processed_url`
is reached only after a successful write. -/
theorem c3_counterexample :
    Ev.markSeen "u" ∉
      processUrl ⟨false, true, some ⟨"Acme", "x"⟩, false, NotifyOutcome.ok⟩
        "u" := by
  decide

/-- C3 amended: the identifier is added to the Local Seen-Set on every
terminal outcome except a failed store write (gate hit, unsupported
domain, scrape failure, validation failure, or a successful insert); on
a store write failure it is not added, so the URL is retried on a later
run.  Whenever a store write is attempted and succeeds the mark comes
after the write, and the mark never precedes an attempted write. -/
theorem c3_amended_mark_ordering (o : UrlOracle) (url : String) :
    (Ev.markSeen url ∈ processUrl o url ↔
      (o.existsInStore = true ∨ o.supported = false ∨ o.scraped = none ∨
        (∃ j, o.scraped = some j ∧ goodCompany j = false) ∨
        o.insertOk = true)) ∧
    (∀ j, Ev.insertAttempt url j ∈ processUrl o url → o.insertOk = true →
      List.Sublist [Ev.insertAttempt url j, Ev.markSeen url]
        (processUrl o url)) ∧
    (∀ j, ¬ List.Sublist [Ev.markSeen url, Ev.insertAttempt url j]
        (processUrl o url)) := by
  refine ⟨?_, ?_, ?_⟩
  · unfold processUrl
    repeat' split
    all_goals simp_all
  · intro j hmem hins
    unfold processUrl at hmem ⊢
    repeat' split at hmem
    all_goals simp_all
  · intro j hsub
    unfold processUrl at hsub
    repeat' split at hsub
    · have h := hsub.subset (List.Mem.tail _ (List.Mem.head _))
      simp at h
    · have h := hsub.subset (List.Mem.tail _ (List.Mem.head _))
      simp at h
    · have h2 := hsub.filter writeOrMark
      simp only [writeOrMark, List.filter_cons, List.filter_nil,
        if_pos, if_neg, Bool.false_eq_true, not_false_eq_true,
        reduceIte] at h2
      cases h2 with
      | cons _ h3 =>
        cases h3 with
        | cons _ h4 =>
          exact absurd (h4.subset (List.Mem.head _)) (List.not_mem_nil _)
        | cons₂ _ h4 =>
          exact absurd (h4.subset (List.Mem.head _)) (List.not_mem_nil _)
    · have h := hsub.subset (List.Mem.head _)
      simp at h
    · have h := hsub.subset (List.Mem.tail _ (List.Mem.head _))
      simp at h
    · have h := hsub.subset (List.Mem.tail _ (List.Mem.head _))
      simp at h

/-- Counterexample to C7 as stated: a scrape result with the non-empty
required field `"N/A"` (the scrapers' own absence sentinel) leads to no
insert at all — the loop also rejects `"N/A"` case-insensitively, not
only empty/missing company values. -/
theorem c7_counterexample :
    (⟨"N/A", "x"⟩ : JobData).company ≠ "" ∧
    processUrl ⟨false, true, some ⟨"N/A", "x"⟩, true, NotifyOutcome.ok⟩
        "u" =
      [Ev.gateCheck "u", Ev.scrapeCall "u", Ev.markSeen "u"] ∧
    insertedJobs ⟨false, true, some ⟨"N/A", "x"⟩, true, NotifyOutcome.ok⟩ =
      [] := by
  decide

/-- C7 amended: for an identifier that passes the seen-set and gate
filters on a supported domain, when the scrape succeeds and the company
field (stripped) is non-empty and not `"N/A"` case-insensitively, the
loop attempts exactly one insert, the successful insert stores exactly
that record, and the identifier is marked seen; when the company is
empty, missing or `"N/A"`, nothing is inserted and the identifier is
marked seen. -/
theorem c7_amended_admission (o : UrlOracle) (url : String)
    (job : JobData) (hex : o.existsInStore = false)
    (hsup : o.supported = true) (hscr : o.scraped = some job) :
    (goodCompany job = true →
      (processUrl o url).count (Ev.insertAttempt url job) = 1 ∧
      insertedJobs o = (if o.insertOk then [job] else []) ∧
      (o.insertOk = true → Ev.markSeen url ∈ processUrl o url)) ∧
    (goodCompany job = false →
      insertedJobs o = [] ∧
      (∀ j, Ev.insertAttempt url j ∉ processUrl o url) ∧
      Ev.markSeen url ∈ processUrl o url) := by
  constructor
  · intro hgood
    unfold processUrl insertedJobs
    repeat' split
    all_goals simp_all [List.count_cons]
  · intro hbad
    unfold processUrl insertedJobs
    repeat' split
    all_goals simp_all

/-- Witness for C7's amended theorem at a concrete oracle. -/
theorem c7_amended_admission_witness :
    goodCompany ⟨"Acme", "x"⟩ = true ∧
    (processUrl ⟨false, true, some ⟨"Acme", "x"⟩, true, NotifyOutcome.ok⟩
        "u").count (Ev.insertAttempt "u" ⟨"Acme", "x"⟩) = 1 ∧
    insertedJobs ⟨false, true, some ⟨"Acme", "x"⟩, true, NotifyOutcome.ok⟩ =
      (if (true : Bool) then [(⟨"Acme", "x"⟩ : JobData)] else []) ∧
    Ev.markSeen "u" ∈
      processUrl ⟨false, true, some ⟨"Acme", "x"⟩, true, NotifyOutcome.ok⟩
        "u" := by
  have h := (c7_amended_admission
    ⟨false, true, some ⟨"Acme", "x"⟩, true, NotifyOutcome.ok⟩ "u"
    ⟨"Acme", "x"⟩ rfl rfl rfl).1 (by decide)
  exact ⟨by decide, h.1, h.2.1, h.2.2 rfl⟩

/-- Counterexample to C6 as stated: the default of the `months`
parameter is `1.5`, and `timedelta(days=90 * 1.5 // 3)` is 45 days —
not approximately 90.  (The 90-day horizon only arises because the
scheduled call site passes `months=3` explicitly.) -/
theorem c6_counterexample :
    horizonDays defaultMonths = 45 ∧ horizonDays defaultMonths ≠ 90 := by
  have h32 : defaultMonths ≠ 3 := by norm_num [defaultMonths]
  have h45 : horizonDays defaultMonths = 45 := by
    rw [horizonDays, if_neg h32]
    norm_num [defaultMonths]
  exact ⟨h45, by rw [h45]; decide⟩

/-- C6 amended: one `delete_old_jobs` run deletes exactly the records
whose stripped `date-posted` parses as `%Y-%m-%d` and is strictly older
than `now - timedelta(days=horizon)`; the horizon is `90*months//3`
days (90 for the scheduled call's `months=3`), and the `months`
parameter defaults to 1.5, i.e. a 45-day horizon — not 90. -/
theorem c6_amended_age_cleanup (now : DateTimeM) (months : ℚ)
    (docs : List JobDoc) :
    (∀ x, x ∈ delete_old_jobs now months docs ↔
      ∃ d ∈ docs, d.id = x ∧ ∃ dp,
        parse_date_safe d.datePosted = some dp ∧
        DateTimeM.ltB ⟨dp, 0⟩ (oldJobsCutoff now months) = true) ∧
    horizonDays defaultMonths = 45 ∧ horizonDays 3 = 90 := by
  refine ⟨?_, c6_counterexample.1, by rw [horizonDays, if_pos rfl]⟩
  intro x
  simp only [delete_old_jobs, List.mem_map, List.mem_filter]
  constructor
  · rintro ⟨d, ⟨hd, hdel⟩, hx⟩
    refine ⟨d, hd, hx, ?_⟩
    unfold oldJobsDeletes at hdel
    cases hp : parse_date_safe d.datePosted with
    | none => rw [hp] at hdel; exact absurd hdel (by simp)
    | some dp => rw [hp] at hdel; exact ⟨dp, rfl, hdel⟩
  · rintro ⟨d, hd, hx, dp, hp, hlt⟩
    exact ⟨d, ⟨hd, by unfold oldJobsDeletes; rw [hp]; exact hlt⟩, hx⟩

/-- C10: a record whose `date-posted` is missing, empty or unparsable
is exempt from both date rules: it is never classified recent by the
purge, never touched by `delete_old_jobs`, never in
`recent_delete_ids`, and when the purge deletes it, it does so only
through the duplicate-collapsing rule. -/
theorem c10_unknown_date_exempt (now : Date) (nowDT : DateTimeM)
    (months : ℚ) (docs : List JobDoc) (d : JobDoc) (hd : d ∈ docs)
    (hnp : parse_date_safe d.datePosted = none)
    (hnodup : (docs.map (·.id)).Nodup) :
    isRecent (cutoffRecent now) (toInfo d) = false ∧
    d.id ∉ delete_old_jobs nowDT months docs ∧
    d.id ∉ recentDeleteIds (cutoffRecent now) (docs.map toInfo) ∧
    (d ∉ purge now docs →
      d.id ∈ dupDeleteIds (cutoffRecent now) (docs.map toInfo)) := by
  have hrec : isRecent (cutoffRecent now) (toInfo d) = false := by
    simp [isRecent, toInfo, hnp]
  have hinj := List.inj_on_of_nodup_map hnodup
  refine ⟨hrec, ?_, ?_, ?_⟩
  · intro hmem
    simp only [delete_old_jobs, List.mem_map, List.mem_filter] at hmem
    obtain ⟨d2, ⟨hd2, hdel⟩, hid⟩ := hmem
    have : d2 = d := hinj hd2 hd hid
    subst this
    unfold oldJobsDeletes at hdel
    rw [hnp] at hdel
    exact absurd hdel (by simp)
  · intro hmem
    rw [mem_recentDeleteIds] at hmem
    obtain ⟨i, hi, hri, hid⟩ := hmem
    obtain ⟨d2, hd2, rfl⟩ := List.mem_map.mp hi
    have : d2 = d := hinj hd2 hd hid
    subst this
    rw [hrec] at hri
    exact absurd hri (by simp)
  · intro hnotin
    rw [mem_purge_iff] at hnotin
    push_neg at hnotin
    have hall := hnotin hd
    rcases List.mem_append.mp hall with h | h
    · exfalso
      rw [mem_recentDeleteIds] at h
      obtain ⟨i, hi, hri, hid⟩ := h
      obtain ⟨d2, hd2, rfl⟩ := List.mem_map.mp hi
      have : d2 = d := hinj hd2 hd hid
      subst this
      rw [hrec] at hri
      exact absurd hri (by simp)
    · exact h

/-- Witness for C10: a record with an empty date that the purge deletes
as the non-survivor of a duplicate pair — the only way it can die. -/
theorem c10_unknown_date_exempt_witness :
    parse_date_safe "" = none ∧
    "b" ∈ dupDeleteIds (cutoffRecent ⟨2024, 6, 10⟩)
      ([⟨"a", "2020-01-01", "L"⟩, ⟨"b", "", "L"⟩].map toInfo) := by
  have h := c10_unknown_date_exempt ⟨2024, 6, 10⟩ ⟨⟨2024, 6, 10⟩, 0⟩ 3
    [⟨"a", "2020-01-01", "L"⟩, ⟨"b", "", "L"⟩] ⟨"b", "", "L"⟩
    (by decide) (by decide) (by decide)
  exact ⟨by decide, h.2.2.2 (by decide)⟩

/-- C9: on the success path the notifier is invoked exactly once per
successful insert (and never otherwise), and since the conclusion holds
for every notifier outcome — returning failure or raising included —
a notifier failure neither removes nor alters the stored record nor
prevents the identifier from being marked seen. -/
theorem c9_notifier_isolation (o : UrlOracle) (url : String)
    (job : JobData) (hex : o.existsInStore = false)
    (hsup : o.supported = true) (hscr : o.scraped = some job)
    (hgood : goodCompany job = true) :
    (processUrl o url).count (Ev.notifyCall url job) =
      (if o.insertOk then 1 else 0) ∧
    (o.insertOk = true →
      insertedJobs o = [job] ∧ Ev.markSeen url ∈ processUrl o url) := by
  unfold processUrl insertedJobs
  repeat' split
  all_goals simp_all [List.count_cons]

/-- Witness for C9 at a concrete oracle whose notifier raises: the
record is still stored and the identifier still marked seen. -/
theorem c9_notifier_isolation_witness :
    goodCompany ⟨"Acme", "x"⟩ = true ∧
    (processUrl ⟨false, true, some ⟨"Acme", "x"⟩, true, NotifyOutcome.err⟩
        "u").count (Ev.notifyCall "u" ⟨"Acme", "x"⟩) =
      (if (true : Bool) then 1 else 0) ∧
    insertedJobs ⟨false, true, some ⟨"Acme", "x"⟩, true,
      NotifyOutcome.err⟩ = [(⟨"Acme", "x"⟩ : JobData)] ∧
    Ev.markSeen "u" ∈
      processUrl ⟨false, true, some ⟨"Acme", "x"⟩, true, NotifyOutcome.err⟩
        "u" := by
  have h := c9_notifier_isolation ⟨false, true, some ⟨"Acme", "x"⟩, true,
    NotifyOutcome.err⟩ "u" ⟨"Acme", "x"⟩ rfl rfl rfl (by decide)
  exact ⟨by decide, h.1, (h.2 rfl).1, (h.2 rfl).2⟩
example : parse_date_safe "  2024-2-29 " = some ⟨2024, 2, 29⟩ := by decide
example : parse_date_safe "2023-02-29" = none := by decide
example : parse_date_safe "" = none := by decide
example : parse_date_safe "15 June 2024" = none := by decide
example : parse_date_safe "2024-01-01-" = none := by decide
example : Date.subDays ⟨2024, 1, 1⟩ 2 = ⟨2023, 12, 30⟩ := by decide
example : Date.subDays ⟨2024, 3, 1⟩ 2 = ⟨2024, 2, 28⟩ := by decide
example : (⟨2024, 1, 5⟩ : Date) ≤ ⟨2024, 1, 7⟩ := by decide
example : ¬ ((⟨2024, 2, 5⟩ : Date) ≤ ⟨2024, 1, 7⟩) := by decide
example :
    purge ⟨2024, 6, 10⟩
      [⟨"id1", "2024-01-01", "L"⟩, ⟨"id2", "2024-01-05", "L"⟩,
       ⟨"id3", "", "L"⟩] =
      [⟨"id1", "2024-01-01", "L"⟩] := by decide

example :
    purge ⟨2024, 6, 10⟩ [⟨"id4", "2024-06-10", "M"⟩] = [] := by decide

example : specGroup
    [⟨"id1", "2024-01-01", "L"⟩, ⟨"id2", "2024-01-05", "L"⟩,
     ⟨"id3", "", "L"⟩, ⟨"id4", "2024-06-10", "M"⟩] "L" =
    [⟨"id1", "2024-01-01", "L"⟩, ⟨"id2", "2024-01-05", "L"⟩,
     ⟨"id3", "", "L"⟩] := by decide
